import Mathlib

/-!
# Newmark-β time stepping: a shallow embedding

This file embeds, over exact rationals, the core of the Newmark-β
time-stepping code of the repository: the boundary-condition
elimination, the effective-system assembly (implicit and lumped modes),
the predictor/corrector stepping loop, the configuration validation of
the lumped mode, the critical-time-step stability warning and the
per-step energy bookkeeping.  Vectors are functions `Fin n → ℚ` and
matrices are `Matrix (Fin n) (Fin n) ℚ`; the LU solve of the code is
modelled by multiplication with the exact inverse matrix.
-/

namespace Newmark

open Matrix

abbrev Vec (n : ℕ) := Fin n → ℚ

abbrev Mat (n : ℕ) := Matrix (Fin n) (Fin n) ℚ

/-- The dolfin vector operation `y.axpy(α, x)`, i.e. `y ← y + α·x`. -/
def axpy {n : ℕ} (α : ℚ) (x y : Vec n) : Vec n := fun i => y i + α * x i

/-- A homogeneous Dirichlet boundary-condition set: the constrained dofs,
all prescribed to the value 0 (`dolfin.DirichletBC(V, zero, left)`). -/
structure BCSet (n : ℕ) where
  fixed : Finset (Fin n)

/-- Modelled from the spec: `bc.apply` on a vector is an external dolfin
collaborator; per the spec it zeroes each constrained row (the prescribed
value being 0 for the homogeneous supports used throughout). -/
def BCSet.applyVec {n : ℕ} (bc : BCSet n) (b : Vec n) : Vec n :=
  fun i => if i ∈ bc.fixed then 0 else b i

/-- Modelled from the spec: `bc.apply` on a matrix is an external dolfin
collaborator; per the spec it zeroes each constrained row and column and
places 1 on the diagonal. -/
def BCSet.applyMat {n : ℕ} (bc : BCSet n) (A : Mat n) : Mat n :=
  Matrix.of fun i j =>
    if i ∈ bc.fixed ∨ j ∈ bc.fixed then (if i = j then 1 else 0) else A i j

/-- `A = M + γ·Δt·C + β·Δt²·K` (source: `A = M + gamma*dt*C + beta*dt**2*K`,
and equivalently `M += gamma*dt*C; M += beta*dt**2*K` in the implicit branch). -/
def effectiveMatrix {n : ℕ} (Mm Cm Km : Mat n) (dt β γ : ℚ) : Mat n :=
  Mm + (γ * dt) • Cm + (β * dt ^ 2) • Km

/-- The effective system with boundary dofs eliminated
(source: `for bc in bcs: bc.apply(A)` after the assembly above). -/
def effectiveSystem {n : ℕ} (bc : BCSet n) (Mm Cm Km : Mat n) (dt β γ : ℚ) : Mat n :=
  bc.applyMat (effectiveMatrix Mm Cm Km dt β γ)

/-- A computable matrix inverse over ℚ: `det⁻¹ • adjugate`.  Agrees with
the true inverse whenever the determinant is nonzero (and is the zero
matrix otherwise, by the `(0 : ℚ)⁻¹ = 0` convention). -/
def matInv {n : ℕ} (A : Mat n) : Mat n := A.det⁻¹ • A.adjugate

/-- The implicit-mode acceleration solve: `solver = LUSolver(A);
solver.solve(a_vec, f_vec)` computes the exact solution of `A·a = f`,
modelled as multiplication by the inverse matrix. -/
def implicitSolve {n : ℕ} (A : Mat n) (f : Vec n) : Vec n := matInv A *ᵥ f

/-- The state triple owned by the integrator: displacement, velocity,
acceleration (`u_vec`, `v_vec`, `a_vec`). -/
@[ext]
structure NState (n : ℕ) where
  u : Vec n
  v : Vec n
  a : Vec n

/-- The zeroed initial state (`u_vec.zero(); v_vec.zero(); a_vec.zero()`). -/
def NState.zero (n : ℕ) : NState n := ⟨0, 0, 0⟩

/-- One pass of the time-stepping loop body of the source, as the exact
sequence of in-place operations:
`u_vec.axpy(dt, v_vec); u_vec.axpy((.5-beta)*dt**2, a_vec);
v_vec.axpy((1.-gamma)*dt, a_vec);` then the force assembly
`C.mult(v_vec, Cv_vec); K.mult(u_vec, Ku_vec); f.axpy(-1., Cv_vec);
f.axpy(-1., Ku_vec); bc.apply(f)`, the solve `solver.solve(a_vec, f)`,
and the corrector `u_vec.axpy(beta*dt**2, a_vec); v_vec.axpy(gamma*dt, a_vec)`. -/
def newmarkStep {n : ℕ} (bc : BCSet n) (Cm Km A : Mat n) (dt β γ : ℚ)
    (fext : Vec n) (s : NState n) : NState n :=
  let ut := axpy ((1/2 - β) * dt ^ 2) s.a (axpy dt s.v s.u)
  let vt := axpy ((1 - γ) * dt) s.a s.v
  let ftil := bc.applyVec (axpy (-1) (Km *ᵥ ut) (axpy (-1) (Cm *ᵥ vt) fext))
  let anew := implicitSolve A ftil
  ⟨axpy (β * dt ^ 2) anew ut, axpy (γ * dt) anew vt, anew⟩

/-- The run: zeroed initial state, then `for n in range(num_steps)` applies
the loop body with the external force evaluated at `t = (n+1)·dt`
(`traction.t = (n+1)*dt; f = dolfin.assemble(p_ext(...))`). -/
def newmarkRun {n : ℕ} (bc : BCSet n) (Cm Km A : Mat n) (dt β γ : ℚ)
    (fe : ℚ → Vec n) : ℕ → NState n
  | 0 => NState.zero n
  | m + 1 => newmarkStep bc Cm Km A dt β γ (fe ((m + 1) * dt))
      (newmarkRun bc Cm Km A dt β γ fe m)

/-- The per-step transition exactly as the spec words it: predictor
`ũ = uₙ + Δt·vₙ + (½−β)Δt²·aₙ`, `ṽ = vₙ + (1−γ)Δt·aₙ`; effective load
`f̃ = f_ext − C·ṽ − K·ũ` with constrained rows zeroed; solve for `aₙ₊₁`;
corrector `uₙ₊₁ = ũ + βΔt²·aₙ₊₁`, `vₙ₊₁ = ṽ + γΔt·aₙ₊₁`. -/
def specStep {n : ℕ} (bc : BCSet n) (Cm Km A : Mat n) (dt β γ : ℚ)
    (fext : Vec n) (s : NState n) : NState n :=
  let ut : Vec n := fun i => s.u i + dt * s.v i + (1/2 - β) * dt ^ 2 * s.a i
  let vt : Vec n := fun i => s.v i + (1 - γ) * dt * s.a i
  let ftil := bc.applyVec (fun i => fext i - (Cm *ᵥ vt) i - (Km *ᵥ ut) i)
  let anew := implicitSolve A ftil
  ⟨fun i => ut i + β * dt ^ 2 * anew i, fun i => vt i + γ * dt * anew i, anew⟩

/-- Row sums of a matrix, the result of `dolfin.assemble(dolfin.action(m, ones))`
used for the lumped mass. -/
def rowSums {n : ℕ} (A : Mat n) : Vec n := fun i => ∑ j, A i j

/-- The lumped effective diagonal (source:
`m = mass(u, v)+one_half*dt*damping(u, v)` followed by row-sum lumping). -/
def lumpedDiag {n : ℕ} (Mm Cm : Mat n) (dt : ℚ) : Vec n :=
  rowSums (Mm + (1/2 * dt) • Cm)

/-- The lumped-mode acceleration computation (source:
`a_vec[:] = M_lumped_inv*f[:]` followed by `for bc in bcs: bc.apply(a_vec)`). -/
def lumpedSolve {n : ℕ} (bc : BCSet n) (Mm Cm : Mat n) (dt : ℚ) (f : Vec n) : Vec n :=
  bc.applyVec fun i => (lumpedDiag Mm Cm dt i)⁻¹ * f i

/-- Modelled from the spec: the expected value of β for the lumped mode is a
student placeholder (`beta_exp = np.inf; raise RuntimeError(...)`) in the
notebook; per the spec the explicit-equivalence pair is `(β, γ) = (0, 1/2)`. -/
def beta_exp : ℚ := 0

/-- Modelled from the spec: see `beta_exp`; the expected value of γ is 1/2. -/
def gamma_exp : ℚ := 1/2

/-- The absolute tolerance of the validation cell (`atol = 1e-12`). -/
def atol : ℚ := 1/10^12

/-- `test_beta = abs(float(beta)-beta_exp) < atol`. -/
def test_beta (β : ℚ) : Bool := decide (|β - beta_exp| < atol)

/-- `test_gamma = abs(float(gamma)-gamma_exp) < atol`. -/
def test_gamma (γ : ℚ) : Bool := decide (|γ - gamma_exp| < atol)

/-- The validation condition of the source:
`if use_lumped_mass and not (test_beta and test_gamma): raise RuntimeError(...)`. -/
def lumpedConfigRejected (use_lumped_mass : Bool) (β γ : ℚ) : Bool :=
  use_lumped_mass && !(test_beta β && test_gamma γ)

/-- The simulation entry point: the validation cell runs before any stepping,
so a rejected configuration produces no run at all. -/
def newmarkSimulation {n : ℕ} (use_lumped_mass : Bool) (bc : BCSet n)
    (Cm Km A : Mat n) (dt β γ : ℚ) (fe : ℚ → Vec n) : Option (ℕ → NState n) :=
  if lumpedConfigRejected use_lumped_mass β γ then none
  else some (newmarkRun bc Cm Km A dt β γ fe)

/-- The critical time step `dt_crit = l_e/c_e` of the source, with `c_e` the
wave speed (in the source, `c_e = np.sqrt(E/float(rho))`; here the caller
supplies `c_e` together with the characterization `c_e² = E/ρ`). -/
def dt_crit (l_e c_e : ℚ) : ℚ := l_e / c_e

/-- The stability check of the source: `if dt > dt_crit: warnings.warn(...)`. -/
def stabilityWarning (dt dtc : ℚ) : Bool := decide (dt > dtc)

/-- The warning together with the run: `warnings.warn` is advisory only,
the stepping proceeds unconditionally. -/
def runWithStability {n : ℕ} (bc : BCSet n) (Cm Km A : Mat n)
    (dt β γ l_e c_e : ℚ) (fe : ℚ → Vec n) : Bool × (ℕ → NState n) :=
  (stabilityWarning dt (dt_crit l_e c_e), newmarkRun bc Cm Km A dt β γ fe)

/-- The damping-dissipation accumulator (`E_damp += dt*assemble(damping(v, v))`),
evaluated with the post-corrector velocity of each completed step. -/
def dampAcc {n : ℕ} (Ce : Mat n) (dt : ℚ) (run : ℕ → NState n) : ℕ → ℚ
  | 0 => 0
  | m + 1 => dampAcc Ce dt run m + dt * ((run (m + 1)).v ⬝ᵥ Ce *ᵥ (run (m + 1)).v)

/-- One row of the energy table:
`[E_elas, E_kin, E_damp, E_tot]` with `E_elas = assemble(0.5*stiffness(u, u))`,
`E_kin = assemble(0.5*mass(v, v))` and `E_tot = E_elas+E_kin+E_damp`. -/
def energyRow {n : ℕ} (Me Ke : Mat n) (s : NState n) (edamp : ℚ) : Fin 4 → ℚ :=
  ![1/2 * (s.u ⬝ᵥ Ke *ᵥ s.u), 1/2 * (s.v ⬝ᵥ Me *ᵥ s.v), edamp,
    1/2 * (s.u ⬝ᵥ Ke *ᵥ s.u) + 1/2 * (s.v ⬝ᵥ Me *ᵥ s.v) + edamp]

/-- The energy table after `m` completed steps: `energies[n+1, :] = ...` is
executed exactly once per loop pass, appending the row computed from the
post-corrector state and the updated damping accumulator. -/
def energyLog {n : ℕ} (Me Ce Ke : Mat n) (dt : ℚ) (run : ℕ → NState n) :
    ℕ → List (Fin 4 → ℚ)
  | 0 => []
  | m + 1 => energyLog Me Ce Ke dt run m ++
      [energyRow Me Ke (run (m + 1)) (dampAcc Ce dt run (m + 1))]

/-- Positive definiteness of a rational matrix, via its quadratic form. -/
def IsPosDefQ {n : ℕ} (A : Mat n) : Prop :=
  ∀ x : Vec n, x ≠ 0 → 0 < x ⬝ᵥ A *ᵥ x

/-- The restriction of a vector to the free (unconstrained) dofs. -/
def freePart {n : ℕ} (bc : BCSet n) (x : Vec n) : Vec n :=
  fun i => if i ∈ bc.fixed then 0 else x i

section Lemmas

variable {n : ℕ}

lemma axpy_zero (α : ℚ) : axpy α (0 : Vec n) 0 = 0 := by
  funext i; simp [axpy]

lemma applyVec_zero (bc : BCSet n) : bc.applyVec 0 = 0 := by
  funext i; simp [BCSet.applyVec]

lemma applyVec_fixed (bc : BCSet n) (b : Vec n) {i : Fin n} (hi : i ∈ bc.fixed) :
    bc.applyVec b i = 0 := by
  simp [BCSet.applyVec, hi]

lemma implicitSolve_zero (A : Mat n) : implicitSolve A 0 = 0 := by
  simp [implicitSolve]

/-- The sequence of in-place `axpy`/`mult`/`apply` operations of the loop body
computes exactly the closed-form predictor/corrector transition of the spec. -/
lemma newmarkStep_eq_specStep (bc : BCSet n) (Cm Km A : Mat n) (dt β γ : ℚ)
    (fext : Vec n) (s : NState n) :
    newmarkStep bc Cm Km A dt β γ fext s = specStep bc Cm Km A dt β γ fext s := by
  have hut : axpy ((1/2 - β) * dt ^ 2) s.a (axpy dt s.v s.u)
      = fun i => s.u i + dt * s.v i + (1/2 - β) * dt ^ 2 * s.a i := by
    funext i; simp only [axpy]
  have hvt : axpy ((1 - γ) * dt) s.a s.v
      = fun i => s.v i + (1 - γ) * dt * s.a i := by
    funext i; simp only [axpy]
  have hft : ∀ ut vt : Vec n,
      axpy (-1) (Km *ᵥ ut) (axpy (-1) (Cm *ᵥ vt) fext)
        = fun i => fext i - (Cm *ᵥ vt) i - (Km *ᵥ ut) i := by
    intro ut vt; funext i; simp only [axpy]; ring
  simp only [newmarkStep, specStep, hut, hvt, hft]
  refine NState.ext ?_ ?_ rfl <;> funext i <;> simp only [axpy]

lemma newmarkStep_zero (bc : BCSet n) (Cm Km A : Mat n) (dt β γ : ℚ) :
    newmarkStep bc Cm Km A dt β γ 0 (NState.zero n) = NState.zero n := by
  have h1 : axpy dt (0 : Vec n) 0 = 0 := axpy_zero dt
  have h2 : axpy ((1/2 - β) * dt ^ 2) (0 : Vec n) 0 = 0 := axpy_zero _
  have h3 : axpy ((1 - γ) * dt) (0 : Vec n) 0 = 0 := axpy_zero _
  simp only [newmarkStep, NState.zero, h1, h2, h3, Matrix.mulVec_zero]
  rw [axpy_zero, axpy_zero, applyVec_zero, implicitSolve_zero, axpy_zero, axpy_zero]

lemma applyMat_fixed_row (bc : BCSet n) (A : Mat n) {i : Fin n}
    (hi : i ∈ bc.fixed) (j : Fin n) :
    bc.applyMat A i j = if i = j then 1 else 0 := by
  simp [BCSet.applyMat, hi]

/-- At a constrained dof, the row of an eliminated matrix is an identity row,
so multiplying a vector just reads off that entry. -/
lemma applyMat_mulVec_fixed (bc : BCSet n) (A : Mat n) (x : Vec n) {i : Fin n}
    (hi : i ∈ bc.fixed) : (bc.applyMat A *ᵥ x) i = x i := by
  simp only [Matrix.mulVec, Matrix.dotProduct, applyMat_fixed_row bc A hi,
    ite_mul, one_mul, zero_mul]
  simp [Finset.sum_ite_eq]

/-- The modelled LU solve really solves the system when the matrix is
nonsingular. -/
lemma mulVec_implicitSolve (A : Mat n) (hA : A.det ≠ 0) (f : Vec n) :
    A *ᵥ implicitSolve A f = f := by
  unfold implicitSolve matInv
  rw [Matrix.mulVec_mulVec, Matrix.mul_smul, Matrix.mul_adjugate, smul_smul,
    inv_mul_cancel₀ hA, one_smul, Matrix.one_mulVec]

/-- At a constrained dof, the implicit solve returns the (zero) right-hand
side entry, thanks to the identity row of the eliminated matrix. -/
lemma implicitSolve_applyMat_fixed (bc : BCSet n) (A0 : Mat n) (f : Vec n)
    (hdet : (bc.applyMat A0).det ≠ 0) {i : Fin n} (hi : i ∈ bc.fixed)
    (hf : f i = 0) : implicitSolve (bc.applyMat A0) f i = 0 := by
  have h := congrFun (mulVec_implicitSolve (bc.applyMat A0) hdet f) i
  rw [applyMat_mulVec_fixed bc A0 _ hi, hf] at h
  exact h

lemma implicitSolve_applyVec_fixed (bc : BCSet n) (A0 : Mat n)
    (hdet : (bc.applyMat A0).det ≠ 0) {i : Fin n} (hi : i ∈ bc.fixed)
    (g : Vec n) : implicitSolve (bc.applyMat A0) (bc.applyVec g) i = 0 :=
  implicitSolve_applyMat_fixed bc A0 _ hdet hi (applyVec_fixed bc g hi)

/-- The boundary invariant of the whole run: starting from the zeroed state,
displacement, velocity and acceleration are exactly zero at every
constrained dof after every step. -/
lemma run_fixed_eq_zero (bc : BCSet n) (Cm Km A0 : Mat n) (dt β γ : ℚ)
    (fe : ℚ → Vec n) (hdet : (bc.applyMat A0).det ≠ 0) (m : ℕ) {i : Fin n}
    (hi : i ∈ bc.fixed) :
    (newmarkRun bc Cm Km (bc.applyMat A0) dt β γ fe m).u i = 0 ∧
    (newmarkRun bc Cm Km (bc.applyMat A0) dt β γ fe m).v i = 0 ∧
    (newmarkRun bc Cm Km (bc.applyMat A0) dt β γ fe m).a i = 0 := by
  induction m with
  | zero => simp [newmarkRun, NState.zero]
  | succ k ih =>
    obtain ⟨hu, hv, ha⟩ := ih
    rw [newmarkRun, newmarkStep_eq_specStep]
    simp only [specStep]
    refine ⟨?_, ?_, ?_⟩ <;>
      simp [implicitSolve_applyVec_fixed bc A0 hdet hi, hu, hv, ha]

/-- At a free dof, an eliminated matrix acts like the original matrix on the
free part of the vector (the constrained columns are zeroed). -/
lemma applyMat_mulVec_free (bc : BCSet n) (A : Mat n) (x : Vec n) {i : Fin n}
    (hi : i ∉ bc.fixed) :
    (bc.applyMat A *ᵥ x) i = (A *ᵥ freePart bc x) i := by
  simp only [Matrix.mulVec, Matrix.dotProduct]
  refine Finset.sum_congr rfl fun j _ => ?_
  by_cases hj : j ∈ bc.fixed
  · have hij : i ≠ j := fun h => hi (h ▸ hj)
    simp [BCSet.applyMat, freePart, hj, hij, hi]
  · simp [BCSet.applyMat, freePart, hj, hi]

/-- The quadratic form of an eliminated matrix splits into the squares of the
constrained entries plus the original quadratic form on the free part. -/
lemma applyMat_quadForm (bc : BCSet n) (A : Mat n) (x : Vec n) :
    x ⬝ᵥ (bc.applyMat A *ᵥ x)
      = (∑ i ∈ bc.fixed, x i ^ 2)
        + freePart bc x ⬝ᵥ (A *ᵥ freePart bc x) := by
  have key : ∀ i, x i * (bc.applyMat A *ᵥ x) i
      = (if i ∈ bc.fixed then x i ^ 2 else 0)
        + freePart bc x i * (A *ᵥ freePart bc x) i := by
    intro i
    by_cases hi : i ∈ bc.fixed
    · rw [applyMat_mulVec_fixed bc A x hi]
      simp [hi, freePart]
      ring
    · rw [applyMat_mulVec_free bc A x hi]
      simp [hi, freePart]
  calc x ⬝ᵥ (bc.applyMat A *ᵥ x)
      = ∑ i, x i * (bc.applyMat A *ᵥ x) i := rfl
    _ = ∑ i, ((if i ∈ bc.fixed then x i ^ 2 else 0)
          + freePart bc x i * (A *ᵥ freePart bc x) i) :=
        Finset.sum_congr rfl fun i _ => key i
    _ = (∑ i, if i ∈ bc.fixed then x i ^ 2 else 0)
          + ∑ i, freePart bc x i * (A *ᵥ freePart bc x) i :=
        Finset.sum_add_distrib
    _ = (∑ i ∈ bc.fixed, x i ^ 2)
          + freePart bc x ⬝ᵥ (A *ᵥ freePart bc x) := by
        rw [Fintype.sum_ite_mem]
        rfl

/-- Elimination preserves positive definiteness. -/
lemma applyMat_posDef (bc : BCSet n) (A : Mat n) (hA : IsPosDefQ A) :
    IsPosDefQ (bc.applyMat A) := by
  intro x hx
  rw [applyMat_quadForm]
  have hyA : 0 ≤ freePart bc x ⬝ᵥ (A *ᵥ freePart bc x) := by
    by_cases h0 : freePart bc x = 0
    · simp [h0]
    · exact le_of_lt (hA _ h0)
  obtain ⟨k, hk⟩ : ∃ k, x k ≠ 0 := by
    by_contra h
    push_neg at h
    exact hx (funext h)
  by_cases hkF : k ∈ bc.fixed
  · have hpos : 0 < ∑ i ∈ bc.fixed, x i ^ 2 :=
      Finset.sum_pos' (fun i _ => sq_nonneg _)
        ⟨k, hkF, by positivity⟩
    linarith
  · have hy0 : freePart bc x ≠ 0 := by
      intro h
      apply hk
      have h2 := congrFun h k
      simpa [freePart, hkF] using h2
    have hsq : 0 ≤ ∑ i ∈ bc.fixed, x i ^ 2 :=
      Finset.sum_nonneg fun i _ => sq_nonneg _
    have := hA _ hy0
    linarith

/-- A positive-definite rational matrix is nonsingular. -/
lemma IsPosDefQ.det_ne_zero {A : Mat n} (hA : IsPosDefQ A) : A.det ≠ 0 := by
  intro hdet
  obtain ⟨v, hv, hAv⟩ := Matrix.exists_mulVec_eq_zero_iff.mpr hdet
  have hq := hA v hv
  rw [hAv] at hq
  simp at hq

/-- Elimination preserves symmetry. -/
lemma applyMat_isSymm (bc : BCSet n) {A : Mat n} (hA : A.IsSymm) :
    (bc.applyMat A).IsSymm := by
  rw [Matrix.IsSymm]
  ext i j
  rw [Matrix.transpose_apply]
  by_cases hi : i ∈ bc.fixed <;> by_cases hj : j ∈ bc.fixed <;>
    simp [BCSet.applyMat, hi, hj, hA.apply, eq_comm]

lemma test_beta_zero : test_beta 0 = true := by
  simp only [test_beta, beta_exp, sub_self, abs_zero, decide_eq_true_eq, atol]
  norm_num

lemma test_beta_quarter : test_beta (1/4) = false := by
  simp only [test_beta, beta_exp, sub_zero, decide_eq_false_iff_not, not_lt, atol]
  rw [abs_of_pos (by norm_num)]
  norm_num

lemma test_beta_atol : test_beta (1/10^12) = false := by
  simp only [test_beta, beta_exp, sub_zero, decide_eq_false_iff_not, not_lt, atol]
  rw [abs_of_pos (by norm_num)]

lemma test_gamma_half : test_gamma (1/2) = true := by
  simp only [test_gamma, gamma_exp, sub_self, abs_zero, decide_eq_true_eq, atol]
  norm_num

/-- The 1×1 matrix `[[2]]` is positive definite. -/
lemma isPosDefQ_two : IsPosDefQ !![(2 : ℚ)] := by
  intro x hx
  have hx0 : x 0 ≠ 0 := by
    intro h0
    exact hx (funext fun i => by rw [Subsingleton.elim i 0]; exact h0)
  have h1 : x ⬝ᵥ (!![(2 : ℚ)] *ᵥ x) = 2 * (x 0 * x 0) := by
    simp [Matrix.mulVec, Matrix.dotProduct, Fin.sum_univ_one]
    ring
  rw [h1]
  have := mul_self_pos.mpr hx0
  linarith

/-- The damping accumulator after `m` steps is the sum of the per-step
increments `Δt·vᵗCv` at the post-corrector velocities. -/
lemma dampAcc_eq_sum (Ce : Mat n) (dt : ℚ) (run : ℕ → NState n) (m : ℕ) :
    dampAcc Ce dt run m
      = ∑ k ∈ Finset.range m, dt * ((run (k+1)).v ⬝ᵥ Ce *ᵥ (run (k+1)).v) := by
  induction m with
  | zero => simp [dampAcc]
  | succ p ih => rw [dampAcc, ih, Finset.sum_range_succ]

/-- The energy log after `N` steps is exactly one closed-form row per
completed step. -/
lemma energyLog_eq_map (Me Ce Ke : Mat n) (dt : ℚ) (run : ℕ → NState n)
    (N : ℕ) :
    energyLog Me Ce Ke dt run N = (List.range N).map (fun m =>
      ![1/2 * ((run (m+1)).u ⬝ᵥ Ke *ᵥ (run (m+1)).u),
        1/2 * ((run (m+1)).v ⬝ᵥ Me *ᵥ (run (m+1)).v),
        ∑ k ∈ Finset.range (m+1), dt * ((run (k+1)).v ⬝ᵥ Ce *ᵥ (run (k+1)).v),
        1/2 * ((run (m+1)).u ⬝ᵥ Ke *ᵥ (run (m+1)).u)
          + 1/2 * ((run (m+1)).v ⬝ᵥ Me *ᵥ (run (m+1)).v)
          + ∑ k ∈ Finset.range (m+1),
              dt * ((run (k+1)).v ⬝ᵥ Ce *ᵥ (run (k+1)).v)]) := by
  induction N with
  | zero => simp [energyLog]
  | succ p ih =>
    rw [energyLog, ih, List.range_succ, List.map_append]
    simp [energyRow, dampAcc_eq_sum]

end Lemmas

section Claims

variable {n : ℕ}

/-- C1: for every step, the per-step transition of the source loop first forms
the predictor `ũ = uₙ + Δt·vₙ + (½−β)Δt²·aₙ`, `ṽ = vₙ + (1−γ)Δt·aₙ` from the
previous acceleration only, then evaluates the external force at
`t = (n+1)Δt`, forms `f̃ = f_ext − C·ṽ − K·ũ` with constrained rows zeroed,
solves for `aₙ₊₁`, and corrects `uₙ₊₁ = ũ + βΔt²·aₙ₊₁`,
`vₙ₊₁ = ṽ + γΔt·aₙ₊₁`. -/
theorem newmark_C1_per_step_transition (bc : BCSet n) (Cm Km A : Mat n)
    (dt β γ : ℚ) (fext : Vec n) (s : NState n) (fe : ℚ → Vec n) (m : ℕ) :
    newmarkStep bc Cm Km A dt β γ fext s = specStep bc Cm Km A dt β γ fext s ∧
    newmarkRun bc Cm Km A dt β γ fe (m + 1)
      = specStep bc Cm Km A dt β γ (fe ((m + 1) * dt))
          (newmarkRun bc Cm Km A dt β γ fe m) :=
  ⟨newmarkStep_eq_specStep bc Cm Km A dt β γ fext s,
   newmarkStep_eq_specStep bc Cm Km A dt β γ _ _⟩

/-- C9: with a zero external force at every step and zeroed initial state,
the state `(u, v, a)` is exactly zero after every step of the run. -/
theorem newmark_C9_zero_fixed_point (bc : BCSet n) (Cm Km A : Mat n)
    (dt β γ : ℚ) (m : ℕ) :
    newmarkRun bc Cm Km A dt β γ (fun _ => 0) m = NState.zero n := by
  induction m with
  | zero => rfl
  | succ k ih =>
    show newmarkStep bc Cm Km A dt β γ _ _ = NState.zero n
    rw [ih]
    exact newmarkStep_zero bc Cm Km A dt β γ

/-- C2: in implicit mode the effective matrix is `A = M + γΔt·C + βΔt²·K`
with boundary dofs eliminated, fixed once for the whole run, and every
acceleration `a` returned by `solve(f)` satisfies `A·a = f`. -/
theorem newmark_C2_effective_system (bc : BCSet n) (Mm Cm Km : Mat n)
    (dt β γ : ℚ) (hdet : (effectiveSystem bc Mm Cm Km dt β γ).det ≠ 0) :
    effectiveSystem bc Mm Cm Km dt β γ
      = bc.applyMat (Mm + (γ * dt) • Cm + (β * dt ^ 2) • Km) ∧
    ∀ f : Vec n, effectiveSystem bc Mm Cm Km dt β γ *ᵥ
        implicitSolve (effectiveSystem bc Mm Cm Km dt β γ) f = f :=
  ⟨rfl, fun f => mulVec_implicitSolve _ hdet f⟩

/-- Witness for C2 at a concrete one-dof system. -/
theorem newmark_C2_witness :
    (effectiveSystem (⟨∅⟩ : BCSet 1) !![1] !![0] !![0] 1 (1/4) (1/2)).det ≠ 0 ∧
    effectiveSystem (⟨∅⟩ : BCSet 1) !![1] !![0] !![0] 1 (1/4) (1/2) *ᵥ
      implicitSolve (effectiveSystem (⟨∅⟩ : BCSet 1) !![1] !![0] !![0] 1 (1/4) (1/2))
        ![5] = ![5] := by
  have hdet : (effectiveSystem (⟨∅⟩ : BCSet 1) !![1] !![0] !![0] 1 (1/4) (1/2)).det ≠ 0 := by
    simp [effectiveSystem, effectiveMatrix, BCSet.applyMat, Matrix.det_fin_one]
  exact ⟨hdet,
    (newmark_C2_effective_system (⟨∅⟩ : BCSet 1) !![1] !![0] !![0] 1 (1/4) (1/2) hdet).2 ![5]⟩

/-- C3: for every step of a run starting from the zeroed state, displacement
and velocity at every dof fixed to zero by the boundary-condition set are
exactly 0 after the corrector of that step. -/
theorem newmark_C3_boundary_invariant (bc : BCSet n) (Cm Km A0 : Mat n)
    (dt β γ : ℚ) (fe : ℚ → Vec n) (hdet : (bc.applyMat A0).det ≠ 0)
    (m : ℕ) {i : Fin n} (hi : i ∈ bc.fixed) :
    (newmarkRun bc Cm Km (bc.applyMat A0) dt β γ fe m).u i = 0 ∧
    (newmarkRun bc Cm Km (bc.applyMat A0) dt β γ fe m).v i = 0 :=
  ⟨(run_fixed_eq_zero bc Cm Km A0 dt β γ fe hdet m hi).1,
   (run_fixed_eq_zero bc Cm Km A0 dt β γ fe hdet m hi).2.1⟩

/-- Witness for C3: a one-dof constrained system driven by a nonzero force,
after two steps. -/
theorem newmark_C3_witness :
    ((⟨{0}⟩ : BCSet 1).applyMat !![5]).det ≠ 0 ∧ (0 : Fin 1) ∈ ({0} : Finset (Fin 1)) ∧
    (newmarkRun (⟨{0}⟩ : BCSet 1) !![2] !![3] ((⟨{0}⟩ : BCSet 1).applyMat !![5])
        1 (1/4) (1/2) (fun t _ => t) 2).u 0 = 0 ∧
    (newmarkRun (⟨{0}⟩ : BCSet 1) !![2] !![3] ((⟨{0}⟩ : BCSet 1).applyMat !![5])
        1 (1/4) (1/2) (fun t _ => t) 2).v 0 = 0 := by
  have hdet : ((⟨{0}⟩ : BCSet 1).applyMat !![5]).det ≠ 0 := by
    simp [BCSet.applyMat, Matrix.det_fin_one]
  have h := newmark_C3_boundary_invariant (⟨{0}⟩ : BCSet 1) !![2] !![3] !![5]
    1 (1/4) (1/2) (fun t _ => t) hdet 2 (Finset.mem_singleton_self 0)
  exact ⟨hdet, Finset.mem_singleton_self 0, h.1, h.2⟩

/-- C10: after every acceleration solve, the acceleration at every constrained
dof is zero: the lumped branch enforces this by re-applying the boundary
conditions directly to the acceleration vector after the diagonal divide
(for any input vector), while the implicit branch enforces it through the
identity rows of the eliminated effective matrix together with the zeroed
constrained rows of the right-hand side. -/
theorem newmark_C10_constrained_acceleration (bc : BCSet n) (Mm Cm A0 : Mat n)
    (dt : ℚ) (f : Vec n) (hdet : (bc.applyMat A0).det ≠ 0)
    (hf : ∀ i ∈ bc.fixed, f i = 0) :
    (∀ g : Vec n, ∀ i ∈ bc.fixed, lumpedSolve bc Mm Cm dt g i = 0) ∧
    (∀ i ∈ bc.fixed, implicitSolve (bc.applyMat A0) f i = 0) :=
  ⟨fun g _i hi => applyVec_fixed bc (fun j => (lumpedDiag Mm Cm dt j)⁻¹ * g j) hi,
   fun i hi => implicitSolve_applyMat_fixed bc A0 f hdet hi (hf i hi)⟩

/-- Witness for C10: a two-dof system with dof 0 constrained. -/
theorem newmark_C10_witness :
    ((⟨{0}⟩ : BCSet 2).applyMat !![9, 9; 9, 1]).det ≠ 0 ∧
    (∀ i ∈ (⟨{0}⟩ : BCSet 2).fixed, (![0, 7] : Vec 2) i = 0) ∧
    lumpedSolve (⟨{0}⟩ : BCSet 2) !![1, 0; 0, 1] !![0, 0; 0, 0] 1 ![3, 4] 0 = 0 ∧
    implicitSolve ((⟨{0}⟩ : BCSet 2).applyMat !![9, 9; 9, 1]) ![0, 7] 0 = 0 := by
  have hdet : ((⟨{0}⟩ : BCSet 2).applyMat !![9, 9; 9, 1]).det ≠ 0 := by
    simp [BCSet.applyMat, Matrix.det_fin_two]
  have hf : ∀ i ∈ (⟨{0}⟩ : BCSet 2).fixed, (![0, 7] : Vec 2) i = 0 := by decide
  have h := newmark_C10_constrained_acceleration (⟨{0}⟩ : BCSet 2)
    !![1, 0; 0, 1] !![0, 0; 0, 0] !![9, 9; 9, 1] 1 ![0, 7] hdet hf
  exact ⟨hdet, hf, h.1 ![3, 4] 0 (by decide), h.2 0 (by decide)⟩

/-- Counterexample for C4: at β exactly one tolerance away from the expected
value the code rejects the lumped configuration, although the deviation is
not *more than* the tolerance (the code accepts only strict `< atol`). -/
theorem newmark_C4_counterexample :
    lumpedConfigRejected true (1/10^12) (1/2) = true ∧
    ¬(|(1/10^12 : ℚ) - beta_exp| > atol ∨ |(1/2 : ℚ) - gamma_exp| > atol) := by
  constructor
  · rw [lumpedConfigRejected, test_beta_atol]
    simp
  · simp only [not_or, not_lt, beta_exp, gamma_exp, atol, sub_zero, sub_self,
      abs_zero]
    constructor
    · rw [abs_of_pos (by norm_num)]
    · norm_num

/-- C4 (amended): validation precedes stepping and, with lumped mass
requested, rejects exactly when (β, γ) deviate from the expected pair
(0, 1/2) by **at least** the absolute tolerance 1e-12; in particular
(β, γ) = (0.25, 0.5) is rejected, (0, 0.5) is accepted, and a rejected
configuration produces no run at all. -/
theorem newmark_C4_lumped_validation (ul : Bool) (β γ : ℚ) (bc : BCSet n)
    (Cm Km A : Mat n) (dt : ℚ) (fe : ℚ → Vec n) :
    (lumpedConfigRejected ul β γ = true ↔
      ul = true ∧ (atol ≤ |β - beta_exp| ∨ atol ≤ |γ - gamma_exp|)) ∧
    lumpedConfigRejected true (1/4) (1/2) = true ∧
    lumpedConfigRejected true 0 (1/2) = false ∧
    (lumpedConfigRejected ul β γ = true →
      newmarkSimulation ul bc Cm Km A dt β γ fe = none) := by
  refine ⟨?_, by rw [lumpedConfigRejected, test_beta_quarter]; simp,
    by rw [lumpedConfigRejected, test_beta_zero, test_gamma_half]; simp,
    fun h => by simp [newmarkSimulation, h]⟩
  simp [lumpedConfigRejected, test_beta, test_gamma, Bool.and_eq_true,
    Bool.not_eq_true', Bool.and_eq_false_iff, decide_eq_false_iff_not,
    decide_eq_true_eq, not_lt]

/-- Witness for C4: the mandated rejection at (0.25, 0.5) and the absence of
any stepping, at a concrete one-dof configuration. -/
theorem newmark_C4_witness :
    lumpedConfigRejected true (1/4) (1/2) = true ∧
    newmarkSimulation true (⟨∅⟩ : BCSet 1) !![0] !![0] !![1] 1 (1/4) (1/2)
      (fun _ _ => 0) = none := by
  have h := newmark_C4_lumped_validation (n := 1) true (1/4) (1/2) ⟨∅⟩
    !![0] !![0] !![1] 1 (fun _ _ => 0)
  exact ⟨h.2.1, h.2.2.2 h.2.1⟩

/-- Counterexample for C5: with a constrained dof, the lumped solve is *not*
the bare element-wise product `diag⁻¹ ⊙ f` for every input vector: the
boundary application that follows the diagonal divide zeroes the
constrained entry. -/
theorem newmark_C5_counterexample :
    lumpedSolve (⟨{0}⟩ : BCSet 1) !![1] !![0] 1 (fun _ => 1) 0 = 0 ∧
    (lumpedDiag !![(1 : ℚ)] !![(0 : ℚ)] 1 0)⁻¹ * (fun _ => (1 : ℚ)) 0 = 1 := by
  constructor
  · simp [lumpedSolve, BCSet.applyVec]
  · simp [lumpedDiag, rowSums]

/-- C5 (amended): the lumped effective diagonal is the row sum of
`mass + ½Δt·damping`; the solve is the element-wise product with the
inverted diagonal *followed by the boundary application to the result*, and
it coincides with the bare element-wise product whenever the input vector
vanishes on the constrained dofs (as it does at the call site, where the
boundary conditions were applied to the force first). -/
theorem newmark_C5_lumped_solve (bc : BCSet n) (Mm Cm : Mat n) (dt : ℚ)
    (f : Vec n) :
    (∀ i, lumpedDiag Mm Cm dt i = ∑ j, (Mm i j + 1/2 * dt * Cm i j)) ∧
    lumpedSolve bc Mm Cm dt f
      = bc.applyVec (fun i => (lumpedDiag Mm Cm dt i)⁻¹ * f i) ∧
    ((∀ i ∈ bc.fixed, f i = 0) →
      ∀ i, lumpedSolve bc Mm Cm dt f i = (lumpedDiag Mm Cm dt i)⁻¹ * f i) := by
  refine ⟨?_, rfl, ?_⟩
  · intro i
    show ∑ j, (Mm + (1/2 * dt) • Cm) i j = _
    refine Finset.sum_congr rfl fun j _ => ?_
    simp [Matrix.add_apply, Matrix.smul_apply, smul_eq_mul]
  · intro hf i
    by_cases hi : i ∈ bc.fixed
    · simp [lumpedSolve, BCSet.applyVec, hi, hf i hi]
    · simp [lumpedSolve, BCSet.applyVec, hi]

/-- Witness for C5: a two-dof lumped system whose force vanishes at the
constrained dof, solved at the free dof. -/
theorem newmark_C5_witness :
    (∀ i ∈ (⟨{0}⟩ : BCSet 2).fixed, (![0, 6] : Vec 2) i = 0) ∧
    lumpedSolve (⟨{0}⟩ : BCSet 2) !![1, 0; 0, 2] !![0, 0; 0, 0] 1 ![0, 6] 1
      = (lumpedDiag !![1, 0; 0, 2] !![0, 0; 0, 0] 1 1)⁻¹ * (![0, 6] : Vec 2) 1 := by
  have hf : ∀ i ∈ (⟨{0}⟩ : BCSet 2).fixed, (![0, 6] : Vec 2) i = 0 := by decide
  exact ⟨hf, (newmark_C5_lumped_solve (⟨{0}⟩ : BCSet 2) !![1, 0; 0, 2]
    !![0, 0; 0, 0] 1 ![0, 6]).2.2 hf 1⟩

/-- Counterexample for C6: a symmetric *nonsingular* matrix can become
singular under the row/column elimination; symmetry alone does not keep the
eliminated matrix nonsingular. -/
theorem newmark_C6_counterexample :
    (!![(0 : ℚ), 1; 1, 0]).IsSymm ∧ (!![(0 : ℚ), 1; 1, 0]).det ≠ 0 ∧
    ((⟨{0}⟩ : BCSet 2).applyMat !![(0 : ℚ), 1; 1, 0]).det = 0 := by
  refine ⟨by decide, by simp [Matrix.det_fin_two], ?_⟩
  simp [BCSet.applyMat, Matrix.det_fin_two]

/-- C6 (amended): the boundary application zeroes each constrained row and
column and places 1 on the diagonal; it preserves symmetry, and it
preserves nonsingularity for positive-definite input (mass-like operators)
— not for arbitrary symmetric nonsingular input; the same elimination is
the one applied to the effective system. -/
theorem newmark_C6_elimination (bc : BCSet n) (A : Mat n) :
    (∀ i ∈ bc.fixed, ∀ j : Fin n,
        bc.applyMat A i j = (if i = j then 1 else 0) ∧
        bc.applyMat A j i = (if j = i then 1 else 0)) ∧
    (A.IsSymm → (bc.applyMat A).IsSymm) ∧
    (IsPosDefQ A → IsPosDefQ (bc.applyMat A) ∧ (bc.applyMat A).det ≠ 0) ∧
    (∀ Mm Cm Km : Mat n, ∀ dt β γ : ℚ,
        effectiveSystem bc Mm Cm Km dt β γ
          = bc.applyMat (effectiveMatrix Mm Cm Km dt β γ)) := by
  refine ⟨?_, applyMat_isSymm bc, ?_, fun _ _ _ _ _ _ => rfl⟩
  · intro i hi j
    exact ⟨applyMat_fixed_row bc A hi j, by simp [BCSet.applyMat, hi]⟩
  · intro hpd
    exact ⟨applyMat_posDef bc A hpd, (applyMat_posDef bc A hpd).det_ne_zero⟩

/-- Witness for C6: the eliminated positive-definite one-dof matrix is
nonsingular. -/
theorem newmark_C6_witness :
    IsPosDefQ !![(2 : ℚ)] ∧
    ((⟨{0}⟩ : BCSet 1).applyMat !![(2 : ℚ)]).det ≠ 0 :=
  ⟨isPosDefQ_two,
   ((newmark_C6_elimination (⟨{0}⟩ : BCSet 1) !![(2 : ℚ)]).2.2.1 isPosDefQ_two).2⟩

/-- C7: after each corrector step the energy accountant records elastic
energy ½uᵗKu, kinetic energy ½vᵗMv, a damping-dissipation accumulator
summing the increments Δt·vᵗCv evaluated at the post-corrector velocity,
and total = elastic + kinetic + damping, writing exactly one 4-column row
per completed step of the run. -/
theorem newmark_C7_energy_accounting (bc : BCSet n) (Cm Km A Me Ce Ke : Mat n)
    (dt β γ : ℚ) (fe : ℚ → Vec n) (N : ℕ) :
    (energyLog Me Ce Ke dt (newmarkRun bc Cm Km A dt β γ fe) N).length = N ∧
    energyLog Me Ce Ke dt (newmarkRun bc Cm Km A dt β γ fe) N
      = (List.range N).map (fun m =>
        ![1/2 * ((newmarkRun bc Cm Km A dt β γ fe (m+1)).u ⬝ᵥ
            Ke *ᵥ (newmarkRun bc Cm Km A dt β γ fe (m+1)).u),
          1/2 * ((newmarkRun bc Cm Km A dt β γ fe (m+1)).v ⬝ᵥ
            Me *ᵥ (newmarkRun bc Cm Km A dt β γ fe (m+1)).v),
          ∑ k ∈ Finset.range (m+1), dt * ((newmarkRun bc Cm Km A dt β γ fe (k+1)).v
            ⬝ᵥ Ce *ᵥ (newmarkRun bc Cm Km A dt β γ fe (k+1)).v),
          1/2 * ((newmarkRun bc Cm Km A dt β γ fe (m+1)).u ⬝ᵥ
            Ke *ᵥ (newmarkRun bc Cm Km A dt β γ fe (m+1)).u)
          + 1/2 * ((newmarkRun bc Cm Km A dt β γ fe (m+1)).v ⬝ᵥ
            Me *ᵥ (newmarkRun bc Cm Km A dt β γ fe (m+1)).v)
          + ∑ k ∈ Finset.range (m+1), dt * ((newmarkRun bc Cm Km A dt β γ fe (k+1)).v
            ⬝ᵥ Ce *ᵥ (newmarkRun bc Cm Km A dt β γ fe (k+1)).v)]) := by
  have h := energyLog_eq_map Me Ce Ke dt (newmarkRun bc Cm Km A dt β γ fe) N
  exact ⟨by rw [h]; simp, h⟩

/-- C8: the critical time step is `l_characteristic / wave_speed` with
`wave_speed = √(E/ρ)` (characterized by its square); a step
`Δt = 1.01·Δt_crit` raises the stability warning, `Δt = 0.5·Δt_crit` does
not, and the warning never alters the stepping itself. -/
theorem newmark_C8_stability_warning (E ρ l_e c_e : ℚ) (hρ : 0 < ρ)
    (hc : 0 < c_e) (hc2 : c_e ^ 2 = E / ρ) (hl : 0 < l_e) (bc : BCSet n)
    (Cm Km A : Mat n) (β γ : ℚ) (fe : ℚ → Vec n) :
    (dt_crit l_e c_e) ^ 2 * E = l_e ^ 2 * ρ ∧
    stabilityWarning (101/100 * dt_crit l_e c_e) (dt_crit l_e c_e) = true ∧
    stabilityWarning (1/2 * dt_crit l_e c_e) (dt_crit l_e c_e) = false ∧
    ∀ dt : ℚ, (runWithStability bc Cm Km A dt β γ l_e c_e fe).2
        = newmarkRun bc Cm Km A dt β γ fe := by
  have hdtc : 0 < dt_crit l_e c_e := div_pos hl hc
  have hc0 : c_e ≠ 0 := ne_of_gt hc
  rw [eq_div_iff (ne_of_gt hρ)] at hc2
  refine ⟨?_, ?_, ?_, fun dt => rfl⟩
  · rw [dt_crit, ← hc2]
    field_simp
    ring
  · simp only [stabilityWarning, decide_eq_true_eq]
    linarith
  · simp only [stabilityWarning, decide_eq_false_iff_not, not_lt]
    linarith

/-- Witness for C8: bar with E = 4, ρ = 1, l = 1, wave speed 2,
so Δt_crit = 1/2. -/
theorem newmark_C8_witness :
    (0 : ℚ) < 1 ∧ (0 : ℚ) < 2 ∧ (2 : ℚ) ^ 2 = 4 / 1 ∧
    stabilityWarning (101/100 * dt_crit 1 2) (dt_crit 1 2) = true ∧
    stabilityWarning (1/2 * dt_crit 1 2) (dt_crit 1 2) = false := by
  have h := newmark_C8_stability_warning (n := 1) 4 1 1 2 (by norm_num)
    (by norm_num) (by norm_num) (by norm_num) ⟨∅⟩ !![0] !![0] !![0] 0 0
    (fun _ _ => 0)
  exact ⟨by norm_num, by norm_num, by norm_num, h.2.1, h.2.2.1⟩

end Claims

end Newmark
